import Mathlib

/-!
Shallow embedding of `main.cpp` of the single-index repository: a builder
that extracts `(key, offset)` pairs from a newline-delimited data file,
sorts them by key, and serializes them with stride `keyLength + 8`; plus a
binary-search reader over the serialized index.

Modelling conventions:
* A byte is a `Nat` (values 0..255 in actual files; the order used by
  `std::string::operator<` is the order on the byte values).
* A data file is a list of lines, each line a list of bytes not containing
  the newline byte 10; on disk each line is terminated by one newline byte.
  `std::ifstream::tellg()` after `getline` has consumed line `i` and its
  newline equals the byte offset of line `i+1`, i.e. the running sum of
  `length + 1`; this identifies the two offset computations of the source
  (`offset = dataFile.tellg()` and `offset += line.length() + 1`).
* `std::streamoff` is 8 bytes on the targeted platforms and is written in
  the host's little-endian byte order; offsets of records are non-negative,
  so they are modelled as `Nat` and serialized base-256 little-endian.
-/

namespace SingleIndex

/-- C++ `std::string` `operator<`: lexicographic comparison of byte
sequences (`char_traits<char>` compares as unsigned bytes); a proper prefix
is smaller than the longer string. -/
def strLt : List Nat → List Nat → Bool
  | [], [] => false
  | [], _ :: _ => true
  | _ :: _, [] => false
  | a :: as, b :: bs => decide (a < b) || (decide (a = b) && strLt as bs)

theorem strLt_irrefl (a : List Nat) : strLt a a = false := by
  induction a with
  | nil => rfl
  | cons x xs ih => simp [strLt, ih]

theorem strLt_eq_of_not_lt {a b : List Nat} (hab : strLt a b = false)
    (hba : strLt b a = false) : a = b := by
  induction a generalizing b with
  | nil => cases b with
    | nil => rfl
    | cons y ys => simp [strLt] at hab
  | cons x xs ih =>
    cases b with
    | nil => simp [strLt] at hba
    | cons y ys =>
      simp [strLt] at hab hba
      have hxy : x = y := le_antisymm hba.1 hab.1
      subst hxy
      have := ih (hab.2 rfl) (hba.2 rfl)
      rw [this]

theorem strLt_trans {a b c : List Nat} (hab : strLt a b = true)
    (hbc : strLt b c = true) : strLt a c = true := by
  induction a generalizing b c with
  | nil =>
    cases c with
    | nil =>
      cases b with
      | nil => exact hab
      | cons y ys => simp [strLt] at hbc
    | cons z zs => simp [strLt]
  | cons x xs ih =>
    cases b with
    | nil => simp [strLt] at hab
    | cons y ys =>
      cases c with
      | nil => simp [strLt] at hbc
      | cons z zs =>
        simp [strLt] at hab hbc ⊢
        rcases hab with hxy | ⟨hxy, hrest⟩
        · rcases hbc with hyz | ⟨hyz, _⟩
          · exact Or.inl (lt_trans hxy hyz)
          · exact Or.inl (hyz ▸ hxy)
        · rcases hbc with hyz | ⟨hyz, hrest2⟩
          · exact Or.inl (hxy ▸ hyz)
          · exact Or.inr ⟨hxy.trans hyz, ih hrest hrest2⟩

theorem strLt_asymm {a b : List Nat} (hab : strLt a b = true) :
    strLt b a = false := by
  by_contra h
  have hba : strLt b a = true := by
    cases hb : strLt b a with
    | false => exact absurd hb h
    | true => rfl
  have := strLt_trans hab hba
  rw [strLt_irrefl] at this
  exact Bool.false_ne_true this

/-- One `(key, offset)` entry of the index, as in `struct IndexEntry`. -/
structure IndexEntry where
  key : List Nat
  offset : Nat
  deriving Repr, DecidableEq

/-- `compareIndexEntries`: strict comparator passed to `std::sort`. -/
def compareIndexEntries (a b : IndexEntry) : Bool := strLt a.key b.key

/-- Non-strict key order induced by the comparator: `a` precedes `b` when
the comparator does not order `b` strictly before `a`. -/
def entryLE (a b : IndexEntry) : Prop := compareIndexEntries b a = false

instance : DecidableRel entryLE := fun a b => by
  unfold entryLE; infer_instance

instance : IsTotal IndexEntry entryLE where
  total a b := by
    unfold entryLE compareIndexEntries
    cases hab : strLt a.key b.key with
    | false => right; rfl
    | true => left; exact strLt_asymm hab

instance : IsTrans IndexEntry entryLE where
  trans a b c hab hbc := by
    unfold entryLE compareIndexEntries at *
    cases hca : strLt c.key a.key with
    | false => rfl
    | true =>
      exfalso
      cases hba : strLt b.key a.key with
      | true => exact Bool.false_ne_true (hab ▸ hba)
      | false =>
        cases hcb : strLt c.key b.key with
        | true => exact Bool.false_ne_true (hbc ▸ hcb)
        | false =>
          cases hbc' : strLt b.key c.key with
          | false =>
            have := strLt_eq_of_not_lt hbc' hcb
            rw [this] at hba
            exact Bool.false_ne_true (hba ▸ hca)
          | true =>
            have := strLt_trans hbc' hca
            exact Bool.false_ne_true (hba ▸ this)

/-- `std::sort(indexEntries.begin(), indexEntries.end(), compareIndexEntries)`:
a comparison sort by `compareIndexEntries`; the order among entries with
equal keys is unspecified by `std::sort`, and no claim depends on it. -/
def sortEntries (es : List IndexEntry) : List IndexEntry :=
  List.insertionSort entryLE es

/-! ### Serialization of the fixed-stride index file -/

/-- The `n` low-order base-256 digits of `off`, least significant first:
the bytes `write(reinterpret_cast<const char*>(&offset), sizeof(offset))`
emits for a non-negative little-endian 8-byte `std::streamoff` (`n = 8`). -/
def offsetBytesAux : Nat → Nat → List Nat
  | 0, _ => []
  | n + 1, off => off % 256 :: offsetBytesAux n (off / 256)

/-- The 8 bytes written for one offset field. -/
def offsetBytes (off : Nat) : List Nat := offsetBytesAux 8 off

/-- Value of a little-endian byte sequence: what
`read(reinterpret_cast<char*>(&offset), sizeof(offset))` reconstructs. -/
def decodeOffset (bs : List Nat) : Nat := bs.foldr (fun b acc => b + 256 * acc) 0

/-- One serialized entry: `write(entry.key.c_str(), keyLength)` followed by
the 8 offset bytes (keys produced by the builder have length `keyLength`,
so `take keyLength` writes the key verbatim). -/
def serializeEntry (keyLength : Nat) (e : IndexEntry) : List Nat :=
  e.key.take keyLength ++ offsetBytes e.offset

/-- The write loop `for (const auto& entry : indexEntries) { ... }`. -/
def serializeEntries (keyLength : Nat) : List IndexEntry → List Nat
  | [] => []
  | e :: es => serializeEntry keyLength e ++ serializeEntries keyLength es

/-- The reload loop of `createIndex`: read `keyLength` key bytes and an
8-byte offset per iteration, stopping when a full entry is no longer
available.  Structural recursion on a fuel that the wrapper instantiates
with the byte count, an upper bound on the number of entries (each
iteration consumes `keyLength + 8 ≥ 8` bytes). -/
def parseEntriesFuel (keyLength : Nat) : Nat → List Nat → List IndexEntry
  | 0, _ => []
  | fuel + 1, bytes =>
    if keyLength + 8 ≤ bytes.length then
      ⟨bytes.take keyLength, decodeOffset ((bytes.drop keyLength).take 8)⟩ ::
        parseEntriesFuel keyLength fuel (bytes.drop (keyLength + 8))
    else []

/-- Entries read back from a serialized index file. -/
def parseEntries (keyLength : Nat) (bytes : List Nat) : List IndexEntry :=
  parseEntriesFuel keyLength bytes.length bytes

/-! ### The data file and key extraction -/

/-- On-disk bytes of the data file: each line followed by one newline. -/
def dataBytes (lines : List (List Nat)) : List Nat :=
  (lines.map (fun l => l ++ [10])).flatten

/-- `seekg(off)` then `getline`: bytes from `off` up to the next newline. -/
def readLineAt (bytes : List Nat) (off : Nat) : List Nat :=
  (bytes.drop off).takeWhile (fun b => b ≠ 10)

/-- Starting byte offset of line `i` in the data file. -/
def lineStart (lines : List (List Nat)) (i : Nat) : Nat :=
  ((lines.take i).map (fun l => l.length + 1)).sum

/-- A well-formed data file: no line contains the newline byte. -/
def WFLines (lines : List (List Nat)) : Prop := ∀ l ∈ lines, (10 : Nat) ∉ l

instance (lines : List (List Nat)) : Decidable (WFLines lines) :=
  List.decidableBAll (fun l => (10 : Nat) ∉ l) lines

/-- The extraction loop shared by both builders, with the running offset
made explicit: for each line, if `line.length() >= keyLength` emit
`(line.substr(0, keyLength), offset)`; the offset then advances past the
line and its newline (`offset = dataFile.tellg()` in `createIndex`,
`offset += line.length() + 1` in `createIndexInMemorySort` — identical on
newline-terminated lines). -/
def extractFrom (keyLength : Nat) : List (List Nat) → Nat → List IndexEntry
  | [], _ => []
  | l :: rest, offset =>
    (if keyLength ≤ l.length then [⟨l.take keyLength, offset⟩] else []) ++
      extractFrom keyLength rest (offset + l.length + 1)

/-- All `(key, offset)` pairs extracted from the data file. -/
def extractEntries (lines : List (List Nat)) (keyLength : Nat) : List IndexEntry :=
  extractFrom keyLength lines 0

/-! ### The two builders -/

/-- `createIndex` (the `-c` mode of `main.cpp`): write unsorted entries to
a temporary file, read them back, sort, and write the final index.  The
result is the byte content of the final index file. -/
def createIndex (lines : List (List Nat)) (keyLength : Nat) : List Nat :=
  let tempBytes := serializeEntries keyLength (extractEntries lines keyLength)
  let entries := parseEntries keyLength tempBytes
  serializeEntries keyLength (sortEntries entries)

/-- `createIndexInMemorySort`: collect entries in memory, sort, write. -/
def createIndexInMemorySort (lines : List (List Nat)) (keyLength : Nat) : List Nat :=
  serializeEntries keyLength (sortEntries (extractEntries lines keyLength))

/-! ### The readers -/

/-- The probe `seekg(mid * (keyLength + sizeof(streamoff)))` followed by
`read(buffer, keyLength)`: the key field of entry `j`. -/
def keyAt (ib : List Nat) (kl j : Nat) : List Nat :=
  (ib.drop (j * (kl + 8))).take kl

/-- The offset field read after a confirmed key match at entry `j`. -/
def offAt (ib : List Nat) (kl j : Nat) : Nat :=
  decodeOffset ((ib.drop (j * (kl + 8) + kl)).take 8)

/-- The binary-search loop of `searchForKey` over the raw index bytes:
`mid = low + (high - low) / 2`; the key at byte position `mid * (kl + 8)`
is compared with the target; `<` sets `low = mid + 1`, `>` sets
`high = mid`, equality reads the 8 offset bytes after the key and stops.
Structural recursion on a fuel; every iteration shrinks `high - low`, so
the wrapper's fuel `numRecords` bounds the iteration count. -/
def searchLoop (ib : List Nat) (kl : Nat) (key : List Nat) :
    Nat → Nat → Nat → Option Nat
  | 0, _, _ => none
  | fuel + 1, low, high =>
    if low < high then
      if strLt (keyAt ib kl (low + (high - low) / 2)) key then
        searchLoop ib kl key fuel ((low + (high - low) / 2) + 1) high
      else if strLt key (keyAt ib kl (low + (high - low) / 2)) then
        searchLoop ib kl key fuel low (low + (high - low) / 2)
      else some (offAt ib kl (low + (high - low) / 2))
    else none

/-- `searchForKey` without the final printing: `numRecords` complete
entries are considered (`fileSize / (keyLength + 8)`); on a hit the data
file is seeked to the recovered offset and one line is read. -/
def searchForKey (ib dataB : List Nat) (key : List Nat) (kl : Nat) :
    Option (List Nat) :=
  let numRecords := ib.length / (kl + 8)
  match searchLoop ib kl key numRecords 0 numRecords with
  | some off => some (readLineAt dataB off)
  | none => none

/-- Bytes rendered back to a string for printing. -/
def stringOfBytes (bs : List Nat) : String := String.mk (bs.map Char.ofNat)

/-- What `searchForKey` prints to standard output: the matched record, or
the literal not-found message. -/
def searchPrint (ib dataB : List Nat) (key : List Nat) (kl : Nat) : String :=
  match searchForKey ib dataB key kl with
  | some r => stringOfBytes r
  | none => "Record not found"

/-- The loop of `listRecords`: per iteration read `keyLength` key bytes
(break if fewer remain) and an 8-byte offset (break if it is incomplete),
then seek the data file to the offset and print the line there. -/
def listLoop (dataB : List Nat) (kl : Nat) : Nat → List Nat → List (List Nat)
  | 0, _ => []
  | fuel + 1, bytes =>
    if kl + 8 ≤ bytes.length then
      readLineAt dataB (decodeOffset ((bytes.drop kl).take 8)) ::
        listLoop dataB kl fuel (bytes.drop (kl + 8))
    else []

/-- Lines printed by `listRecords`, in index-file order. -/
def listRecords (ib dataB : List Nat) (kl : Nat) : List (List Nat) :=
  listLoop dataB kl ib.length ib

/-! ### The command-line driver

`mainRun` mirrors `main`: the data file and the index file are `none` when
they cannot be opened.  The helper functions are `void`; on an open
failure they print a diagnostic to `cerr` and return, after which `main`
still falls through to `return 0`.  The result is the pair
(exit status, lines written to the error stream). -/

/-- Exit status and error-stream output of one invocation of `main`. -/
def mainRun (argv : List String) (dataLines : Option (List (List Nat)))
    (ib : Option (List Nat)) : Nat × List String :=
  if argv.length < 5 then
    (1, ["Usage: -c|-l|-s datafile indexfile keylength [key]"])
  else
    let mode := argv.getD 1 ""
    if mode = "-c" then
      match dataLines with
      | none => (0, ["Error opening data file for reading."])
      | some _ => (0, [])
    else if mode = "-l" then
      match ib with
      | none => (0, ["Error opening index file for reading."])
      | some _ =>
        match dataLines with
        | none => (0, ["Error opening data file for reading."])
        | some _ => (0, [])
    else if mode = "-s" then
      if argv.length ≠ 6 then
        (1, ["Usage: -s datafile indexfile keylength key"])
      else
        match ib with
        | none => (0, ["Error opening index file for reading."])
        | some _ =>
          match dataLines with
          | none => (0, ["Error opening data file for reading."])
          | some _ => (0, [])
    else
      (1, ["Invalid mode. Use -c to create index, -l to list records, or -s to search for a key."])

/-! ### Concrete data files used to exercise the model

`exampleLines` is the concrete scenario of the specification:
`"AAAA-1"`, `"BBBB-2"`, `"CCCC-3"` with `keyLength = 4`.  `dupLines` is
the two-record file `"AB"`, `"AC"`, whose records share the length-1 key
`"A"`. -/

def exampleLines : List (List Nat) :=
  [[65, 65, 65, 65, 45, 49], [66, 66, 66, 66, 45, 50], [67, 67, 67, 67, 45, 51]]

def dupLines : List (List Nat) := [[65, 66], [65, 67]]

/-- A file whose second record (`"BB"`) is shorter than `keyLength = 4`. -/
def mixedLines : List (List Nat) := [[65, 65, 65, 65, 45, 49], [66, 66]]

/-- The sorted entry list of the example index (`keyLength = 4`). -/
def exampleEntries : List IndexEntry :=
  [⟨[65, 65, 65, 65], 0⟩, ⟨[66, 66, 66, 66], 7⟩, ⟨[67, 67, 67, 67], 14⟩]

/-! ### Offset encoding facts -/

theorem offsetBytesAux_length (n off : Nat) : (offsetBytesAux n off).length = n := by
  induction n generalizing off with
  | zero => rfl
  | succ n ih => simp [offsetBytesAux, ih]

theorem decode_offsetBytesAux (n off : Nat) :
    decodeOffset (offsetBytesAux n off) = off % 256 ^ n := by
  induction n generalizing off with
  | zero => simp [offsetBytesAux, decodeOffset, Nat.mod_one]
  | succ n ih =>
    have h1 : decodeOffset (offsetBytesAux (n + 1) off)
        = off % 256 + 256 * decodeOffset (offsetBytesAux n (off / 256)) := by
      simp [offsetBytesAux, decodeOffset]
    rw [h1, ih, pow_succ' (256 : Nat) n, Nat.mod_mul]

theorem offsetBytes_length (off : Nat) : (offsetBytes off).length = 8 :=
  offsetBytesAux_length 8 off

theorem decode_offsetBytes (off : Nat) :
    decodeOffset (offsetBytes off) = off % 2 ^ 64 := by
  have h : (256 : Nat) ^ 8 = 2 ^ 64 := by norm_num
  rw [offsetBytes, decode_offsetBytesAux, h]

theorem decode_offsetBytes_of_lt {off : Nat} (h : off < 2 ^ 64) :
    decodeOffset (offsetBytes off) = off := by
  rw [decode_offsetBytes, Nat.mod_eq_of_lt h]

/-! ### Shape of the serialized index -/

/-- All keys of the entry list have the exact width `keyLength`. -/
def GoodKeys (keyLength : Nat) (es : List IndexEntry) : Prop :=
  ∀ e ∈ es, e.key.length = keyLength

/-- All offsets of the entry list fit in the 8-byte field. -/
def SmallOffsets (es : List IndexEntry) : Prop :=
  ∀ e ∈ es, e.offset < 2 ^ 64

theorem serializeEntry_length {kl : Nat} {e : IndexEntry}
    (h : e.key.length = kl) : (serializeEntry kl e).length = kl + 8 := by
  simp [serializeEntry, offsetBytes_length, List.length_take, h]

theorem serializeEntries_length {kl : Nat} {es : List IndexEntry}
    (h : GoodKeys kl es) :
    (serializeEntries kl es).length = es.length * (kl + 8) := by
  induction es with
  | nil => simp [serializeEntries]
  | cons e es ih =>
    have he : e.key.length = kl := h e (List.mem_cons_self e es)
    have hes : GoodKeys kl es := fun x hx => h x (List.mem_cons_of_mem e hx)
    simp [serializeEntries, serializeEntry_length he, ih hes]
    ring

theorem serializeEntries_drop_stride {kl : Nat} {es : List IndexEntry}
    (h : GoodKeys kl es) (j : Nat) :
    (serializeEntries kl es).drop (j * (kl + 8)) = serializeEntries kl (es.drop j) := by
  induction j generalizing es with
  | zero => simp
  | succ j ih =>
    cases es with
    | nil => simp [serializeEntries]
    | cons e es =>
      have he : e.key.length = kl := h e (List.mem_cons_self e es)
      have hes : GoodKeys kl es := fun x hx => h x (List.mem_cons_of_mem e hx)
      have hlen : (serializeEntry kl e).length = kl + 8 := serializeEntry_length he
      have step : (j + 1) * (kl + 8) = (kl + 8) + j * (kl + 8) := by ring
      calc (serializeEntries kl (e :: es)).drop ((j + 1) * (kl + 8))
          = (serializeEntry kl e ++ serializeEntries kl es).drop
              ((serializeEntry kl e).length + j * (kl + 8)) := by
            rw [serializeEntries, step, hlen]
        _ = (serializeEntries kl es).drop (j * (kl + 8)) := by
            rw [List.drop_append]
        _ = serializeEntries kl (es.drop j) := ih hes

theorem keyAt_serializeEntries {kl : Nat} {es : List IndexEntry}
    (h : GoodKeys kl es) (j : Nat) (hj : j < es.length) :
    ((serializeEntries kl es).drop (j * (kl + 8))).take kl
      = (es.getD j ⟨[], 0⟩).key := by
  rw [serializeEntries_drop_stride h j, List.getD_eq_getElem _ _ hj,
    List.drop_eq_getElem_cons hj]
  have hkey : es[j].key.length = kl := h _ (List.getElem_mem hj)
  have htake : es[j].key.take kl = es[j].key :=
    List.take_of_length_le (le_of_eq hkey)
  show (serializeEntry kl es[j] ++ serializeEntries kl (es.drop (j + 1))).take kl
      = es[j].key
  rw [serializeEntry, htake, List.append_assoc, List.take_left' hkey]

theorem offAt_serializeEntries {kl : Nat} {es : List IndexEntry}
    (h : GoodKeys kl es) (j : Nat) (hj : j < es.length) :
    decodeOffset (((serializeEntries kl es).drop (j * (kl + 8) + kl)).take 8)
      = (es.getD j ⟨[], 0⟩).offset % 2 ^ 64 := by
  have hdrop2 : (serializeEntries kl es).drop (j * (kl + 8) + kl)
      = ((serializeEntries kl es).drop (j * (kl + 8))).drop kl := by
    rw [List.drop_drop]
  rw [hdrop2, serializeEntries_drop_stride h j, List.getD_eq_getElem _ _ hj,
    List.drop_eq_getElem_cons hj]
  have hkey : es[j].key.length = kl := h _ (List.getElem_mem hj)
  have htake : es[j].key.take kl = es[j].key :=
    List.take_of_length_le (le_of_eq hkey)
  show decodeOffset
      (((serializeEntry kl es[j] ++ serializeEntries kl (es.drop (j + 1))).drop kl).take 8)
      = es[j].offset % 2 ^ 64
  rw [serializeEntry, htake, List.append_assoc, List.drop_left' hkey,
    List.take_left' (offsetBytes_length _), decode_offsetBytes]

theorem parseEntriesFuel_serialize {kl : Nat} {es : List IndexEntry}
    (h : GoodKeys kl es) :
    ∀ fuel, es.length ≤ fuel →
      parseEntriesFuel kl fuel (serializeEntries kl es)
        = es.map (fun e => ⟨e.key, e.offset % 2 ^ 64⟩) := by
  induction es with
  | nil =>
    intro fuel _
    cases fuel with
    | zero => rfl
    | succ f => simp [parseEntriesFuel, serializeEntries]
  | cons e es ih =>
    intro fuel hfuel
    cases fuel with
    | zero => exact absurd hfuel (by simp)
    | succ f =>
      have he : e.key.length = kl := h e (List.mem_cons_self e es)
      have hes : GoodKeys kl es := fun x hx => h x (List.mem_cons_of_mem e hx)
      have htake : e.key.take kl = e.key := List.take_of_length_le (le_of_eq he)
      have hser : serializeEntries kl (e :: es)
          = e.key ++ (offsetBytes e.offset ++ serializeEntries kl es) := by
        rw [serializeEntries, serializeEntry, htake, List.append_assoc]
      have hlen : kl + 8 ≤ (serializeEntries kl (e :: es)).length := by
        rw [serializeEntries_length h]
        have h1 : 1 * (kl + 8) ≤ (e :: es).length * (kl + 8) :=
          Nat.mul_le_mul_right _ (by simp)
        omega
      rw [parseEntriesFuel, if_pos hlen, hser]
      rw [List.take_left' he, ← List.drop_drop, List.drop_left' he,
        List.take_left' (offsetBytes_length _), List.drop_left' (offsetBytes_length _),
        decode_offsetBytes]
      have hf : es.length ≤ f := by simpa using hfuel
      rw [ih hes f hf, List.map_cons]

theorem parseEntries_serialize {kl : Nat} {es : List IndexEntry}
    (h : GoodKeys kl es) :
    parseEntries kl (serializeEntries kl es)
      = es.map (fun e => ⟨e.key, e.offset % 2 ^ 64⟩) := by
  apply parseEntriesFuel_serialize h
  rw [serializeEntries_length h]
  exact Nat.le_mul_of_pos_right _ (by omega)

theorem parseEntries_serialize_of_small {kl : Nat} {es : List IndexEntry}
    (h : GoodKeys kl es) (hs : SmallOffsets es) :
    parseEntries kl (serializeEntries kl es) = es := by
  rw [parseEntries_serialize h]
  have hmap : ∀ e ∈ es, (fun e : IndexEntry => (⟨e.key, e.offset % 2 ^ 64⟩ : IndexEntry)) e
      = id e := by
    intro e he
    have hmod : e.offset % 2 ^ 64 = e.offset := Nat.mod_eq_of_lt (hs e he)
    show (⟨e.key, e.offset % 2 ^ 64⟩ : IndexEntry) = e
    rw [hmod]
  rw [List.map_congr_left hmap, List.map_id]

/-! ### The sort step -/

theorem sortEntries_perm (es : List IndexEntry) : List.Perm (sortEntries es) es :=
  List.perm_insertionSort entryLE es

theorem sortEntries_sorted (es : List IndexEntry) :
    List.Sorted entryLE (sortEntries es) :=
  List.sorted_insertionSort entryLE es

theorem goodKeys_sortEntries {kl : Nat} {es : List IndexEntry}
    (h : GoodKeys kl es) : GoodKeys kl (sortEntries es) :=
  fun e he => h e ((sortEntries_perm es).mem_iff.mp he)

theorem smallOffsets_sortEntries {es : List IndexEntry}
    (h : SmallOffsets es) : SmallOffsets (sortEntries es) :=
  fun e he => h e ((sortEntries_perm es).mem_iff.mp he)

theorem goodKeys_map_mod {kl : Nat} {es : List IndexEntry} (h : GoodKeys kl es) :
    GoodKeys kl (es.map (fun e => ⟨e.key, e.offset % 2 ^ 64⟩)) := by
  intro e he
  rcases List.mem_map.mp he with ⟨x, hx, rfl⟩
  exact h x hx

/-! ### Characterization of extraction, offsets and line reads -/

theorem lineStart_zero (lines : List (List Nat)) : lineStart lines 0 = 0 := by
  simp [lineStart]

theorem lineStart_cons_succ (l : List Nat) (rest : List (List Nat)) (j : Nat) :
    lineStart (l :: rest) (j + 1) = (l.length + 1) + lineStart rest j := by
  simp [lineStart]

theorem mem_extractFrom {kl : Nat} {lines : List (List Nat)} {off : Nat}
    {e : IndexEntry} :
    e ∈ extractFrom kl lines off ↔
      ∃ j, j < lines.length ∧ kl ≤ (lines.getD j []).length ∧
        e = ⟨(lines.getD j []).take kl, off + lineStart lines j⟩ := by
  induction lines generalizing off with
  | nil => simp [extractFrom]
  | cons l rest ih =>
    constructor
    · intro hmem
      rcases List.mem_append.mp hmem with h1 | h2
      · by_cases hkl : kl ≤ l.length
        · rw [if_pos hkl] at h1
          refine ⟨0, by simp, by simpa using hkl, ?_⟩
          simp only [List.getD_cons_zero, lineStart_zero]
          simpa using h1
        · rw [if_neg hkl] at h1
          exact absurd h1 (List.not_mem_nil e)
      · rcases ih.mp h2 with ⟨j, hj, hlen, he⟩
        refine ⟨j + 1, by simpa using hj, by simpa using hlen, ?_⟩
        rw [he, List.getD_cons_succ, lineStart_cons_succ]
        have : off + l.length + 1 + lineStart rest j
            = off + (l.length + 1 + lineStart rest j) := by ring
        rw [this]
    · rintro ⟨j, hj, hlen, he⟩
      cases j with
      | zero =>
        apply List.mem_append.mpr
        left
        simp only [List.getD_cons_zero] at hlen he
        rw [if_pos hlen]
        simp [he, lineStart_zero]
      | succ j =>
        apply List.mem_append.mpr
        right
        apply ih.mpr
        refine ⟨j, by simpa using hj, by simpa using hlen, ?_⟩
        rw [he, List.getD_cons_succ, lineStart_cons_succ]
        have : off + (l.length + 1 + lineStart rest j)
            = off + l.length + 1 + lineStart rest j := by ring
        rw [this]

theorem mem_extractEntries {kl : Nat} {lines : List (List Nat)} {e : IndexEntry} :
    e ∈ extractEntries lines kl ↔
      ∃ j, j < lines.length ∧ kl ≤ (lines.getD j []).length ∧
        e = ⟨(lines.getD j []).take kl, lineStart lines j⟩ := by
  rw [extractEntries, mem_extractFrom]
  simp

theorem goodKeys_extractEntries (lines : List (List Nat)) (kl : Nat) :
    GoodKeys kl (extractEntries lines kl) := by
  intro e he
  rcases mem_extractEntries.mp he with ⟨j, _, hlen, rfl⟩
  show (List.take kl (lines.getD j [])).length = kl
  rw [List.length_take]
  omega

theorem dataBytes_length (lines : List (List Nat)) :
    (dataBytes lines).length = (lines.map (fun l => l.length + 1)).sum := by
  induction lines with
  | nil => rfl
  | cons l rest ih => simp [dataBytes, List.flatten] at *; omega

theorem lineStart_le_length (lines : List (List Nat)) (j : Nat) :
    lineStart lines j ≤ (dataBytes lines).length := by
  rw [dataBytes_length, lineStart]
  have hsplit : ((lines.map (fun l => l.length + 1)).take j).sum
      + ((lines.map (fun l => l.length + 1)).drop j).sum
      = (lines.map (fun l => l.length + 1)).sum :=
    List.sum_take_add_sum_drop _ j
  rw [List.map_take]
  omega

theorem lineStart_strictMono {lines : List (List Nat)} {i j : Nat}
    (hij : i < j) (hj : j ≤ lines.length) :
    lineStart lines i < lineStart lines j := by
  induction lines generalizing i j with
  | nil => simp at hj; omega
  | cons l rest ih =>
    cases j with
    | zero => omega
    | succ j =>
      cases i with
      | zero =>
        rw [lineStart_zero, lineStart_cons_succ]
        omega
      | succ i =>
        rw [lineStart_cons_succ, lineStart_cons_succ]
        have := ih (by omega : i < j) (by simpa using hj)
        omega

theorem smallOffsets_extractEntries {lines : List (List Nat)} {kl : Nat}
    (h64 : (dataBytes lines).length < 2 ^ 64) :
    SmallOffsets (extractEntries lines kl) := by
  intro e he
  rcases mem_extractEntries.mp he with ⟨j, _, _, rfl⟩
  exact lt_of_le_of_lt (lineStart_le_length lines j) h64

/-- `takeWhile` stops exactly at the first newline. -/
theorem takeWhile_append_stop {p : Nat → Bool} {l tail : List Nat} {x : Nat}
    (h : ∀ b ∈ l, p b = true) (hx : p x = false) :
    (l ++ x :: tail).takeWhile p = l := by
  induction l with
  | nil => simp [List.takeWhile, hx]
  | cons a l ih =>
    have ha : p a = true := h a (List.mem_cons_self a l)
    have hl : ∀ b ∈ l, p b = true := fun b hb => h b (List.mem_cons_of_mem a hb)
    simp [List.takeWhile, ha, ih hl]

theorem readLineAt_lineStart {lines : List (List Nat)} (hWF : WFLines lines) :
    ∀ i, i < lines.length →
      readLineAt (dataBytes lines) (lineStart lines i) = lines.getD i [] := by
  induction lines with
  | nil => intro i hi; simp at hi
  | cons l rest ih =>
    have hWFl : (10 : Nat) ∉ l := hWF l (List.mem_cons_self l rest)
    have hWFrest : WFLines rest := fun x hx => hWF x (List.mem_cons_of_mem l hx)
    have hdata : dataBytes (l :: rest) = (l ++ [10]) ++ dataBytes rest := by
      simp [dataBytes]
    intro i hi
    cases i with
    | zero =>
      rw [lineStart_zero, readLineAt, List.drop_zero, hdata, List.getD_cons_zero,
        List.append_assoc]
      have hl : ∀ b ∈ l, (fun b => decide (b ≠ 10)) b = true := by
        intro b hb
        simp
        intro hb10
        exact hWFl (hb10 ▸ hb)
      exact takeWhile_append_stop hl (by simp)
    | succ i =>
      rw [lineStart_cons_succ, readLineAt, hdata, List.getD_cons_succ]
      have hlen : (l ++ [10]).length = l.length + 1 := by simp
      rw [← hlen, List.drop_append]
      exact ih hWFrest i (by simpa using hi)

/-! ### Equality of the two build strategies (helper) -/

theorem createIndex_eq_inMemory {lines : List (List Nat)} {kl : Nat}
    (h64 : (dataBytes lines).length < 2 ^ 64) :
    createIndex lines kl = createIndexInMemorySort lines kl := by
  show serializeEntries kl
      (sortEntries (parseEntries kl (serializeEntries kl (extractEntries lines kl))))
      = serializeEntries kl (sortEntries (extractEntries lines kl))
  rw [parseEntries_serialize_of_small (goodKeys_extractEntries lines kl)
    (smallOffsets_extractEntries h64)]

/-! ### Binary search -/

theorem sorted_strLt_getD {ses : List IndexEntry}
    (hs : List.Sorted entryLE ses) {i j : Nat} (hij : i ≤ j) (hj : j < ses.length) :
    strLt (ses.getD j ⟨[], 0⟩).key (ses.getD i ⟨[], 0⟩).key = false := by
  rcases Nat.eq_or_lt_of_le hij with rfl | hlt
  · exact strLt_irrefl _
  · have hi : i < ses.length := lt_trans hlt hj
    have hrel : entryLE (ses.get ⟨i, hi⟩) (ses.get ⟨j, hj⟩) :=
      List.Sorted.rel_get_of_lt hs (by exact hlt)
    rw [List.getD_eq_getElem _ _ hj, List.getD_eq_getElem _ _ hi]
    exact hrel

/-- If the loop answers `some`, it confirmed a byte-equal key at some
stride-aligned probe inside the search range and returned that entry's
offset field. -/
theorem searchLoop_some_probe {ib : List Nat} {kl : Nat} {key : List Nat} :
    ∀ fuel low high off, searchLoop ib kl key fuel low high = some off →
      ∃ j, low ≤ j ∧ j < high ∧ keyAt ib kl j = key ∧ off = offAt ib kl j := by
  intro fuel
  induction fuel with
  | zero => intro low high off h; simp [searchLoop] at h
  | succ f ih =>
    intro low high off h
    rw [searchLoop] at h
    by_cases hlh : low < high
    · rw [if_pos hlh] at h
      have hmid : low ≤ low + (high - low) / 2 ∧ low + (high - low) / 2 < high := by
        omega
      by_cases h1 : strLt (keyAt ib kl (low + (high - low) / 2)) key = true
      · rw [if_pos h1] at h
        rcases ih _ _ _ h with ⟨j, hj1, hj2, hj3, hj4⟩
        exact ⟨j, by omega, hj2, hj3, hj4⟩
      · rw [if_neg h1] at h
        by_cases h2 : strLt key (keyAt ib kl (low + (high - low) / 2)) = true
        · rw [if_pos h2] at h
          rcases ih _ _ _ h with ⟨j, hj1, hj2, hj3, hj4⟩
          exact ⟨j, hj1, by omega, hj3, hj4⟩
        · rw [if_neg h2] at h
          refine ⟨low + (high - low) / 2, hmid.1, hmid.2, ?_, ?_⟩
          · exact strLt_eq_of_not_lt (Bool.eq_false_iff.mpr h1) (Bool.eq_false_iff.mpr h2)
          · exact (Option.some.inj h).symm
    · rw [if_neg hlh] at h
      exact absurd h (by simp)

/-- If the loop answers `none` while the range invariant holds over a
sorted entry list whose key fields back the byte probes, no entry of the
list carries the target key. -/
theorem searchLoop_none_no_match {ib : List Nat} {kl : Nat} {key : List Nat}
    {ses : List IndexEntry}
    (hkeys : ∀ j, j < ses.length → keyAt ib kl j = (ses.getD j ⟨[], 0⟩).key)
    (hsorted : List.Sorted entryLE ses) :
    ∀ fuel low high, high - low ≤ fuel → high ≤ ses.length →
      (∀ j, j < ses.length → (ses.getD j ⟨[], 0⟩).key = key → low ≤ j ∧ j < high) →
      searchLoop ib kl key fuel low high = none →
      ∀ j, j < ses.length → (ses.getD j ⟨[], 0⟩).key ≠ key := by
  intro fuel
  induction fuel with
  | zero =>
    intro low high hf _ hinv _ j hj hkey
    have := hinv j hj hkey
    omega
  | succ f ih =>
    intro low high hf hh hinv hnone
    by_cases hlh : low < high
    · rw [searchLoop, if_pos hlh] at hnone
      have hmidlt : low + (high - low) / 2 < high := by omega
      have hmidge : low ≤ low + (high - low) / 2 := by omega
      have hmidn : low + (high - low) / 2 < ses.length := lt_of_lt_of_le hmidlt hh
      by_cases h1 : strLt (keyAt ib kl (low + (high - low) / 2)) key = true
      · rw [if_pos h1] at hnone
        refine ih ((low + (high - low) / 2) + 1) high (by omega) hh ?_ hnone
        intro j hj hkey
        have hold := hinv j hj hkey
        refine ⟨?_, hold.2⟩
        by_contra hc
        have hjm : j ≤ low + (high - low) / 2 := by omega
        have hle := sorted_strLt_getD hsorted hjm hmidn
        rw [hkeys _ hmidn] at h1
        rw [hkey] at hle
        exact Bool.false_ne_true (hle ▸ h1)
      · rw [if_neg h1] at hnone
        by_cases h2 : strLt key (keyAt ib kl (low + (high - low) / 2)) = true
        · rw [if_pos h2] at hnone
          refine ih low (low + (high - low) / 2) (by omega) (le_of_lt hmidn) ?_ hnone
          intro j hj hkey
          have hold := hinv j hj hkey
          refine ⟨hold.1, ?_⟩
          by_contra hc
          have hjm : low + (high - low) / 2 ≤ j := by omega
          have hle := sorted_strLt_getD hsorted hjm hj
          rw [hkeys _ hmidn] at h2
          rw [hkey] at hle
          exact Bool.false_ne_true (hle ▸ h2)
        · rw [if_neg h2] at hnone
          exact absurd hnone (by simp)
    · intro j hj hkey
      have := hinv j hj hkey
      omega

/-- On a sorted backing list, a present key is always found. -/
theorem searchLoop_finds {ib : List Nat} {kl : Nat} {key : List Nat}
    {ses : List IndexEntry}
    (hkeys : ∀ j, j < ses.length → keyAt ib kl j = (ses.getD j ⟨[], 0⟩).key)
    (hsorted : List.Sorted entryLE ses)
    {fuel low high : Nat} (hf : high - low ≤ fuel) (hh : high ≤ ses.length)
    (hinv : ∀ j, j < ses.length → (ses.getD j ⟨[], 0⟩).key = key → low ≤ j ∧ j < high)
    (hex : ∃ j, j < ses.length ∧ (ses.getD j ⟨[], 0⟩).key = key) :
    ∃ off, searchLoop ib kl key fuel low high = some off := by
  rcases hex with ⟨j, hj, hkey⟩
  cases hres : searchLoop ib kl key fuel low high with
  | none =>
    exact absurd hkey
      (searchLoop_none_no_match hkeys hsorted fuel low high hf hh hinv hres j hj)
  | some off => exact ⟨off, rfl⟩

/-- Length of the final index file in terms of the entry count. -/
theorem createIndex_length (lines : List (List Nat)) (kl : Nat) :
    (createIndex lines kl).length = (extractEntries lines kl).length * (kl + 8) := by
  have hg0 : GoodKeys kl (extractEntries lines kl) := goodKeys_extractEntries lines kl
  have hg1 : GoodKeys kl
      (parseEntries kl (serializeEntries kl (extractEntries lines kl))) := by
    rw [parseEntries_serialize hg0]
    exact goodKeys_map_mod hg0
  have hg2 : GoodKeys kl
      (sortEntries (parseEntries kl (serializeEntries kl (extractEntries lines kl)))) :=
    goodKeys_sortEntries hg1
  show (serializeEntries kl
      (sortEntries (parseEntries kl (serializeEntries kl (extractEntries lines kl))))).length
      = (extractEntries lines kl).length * (kl + 8)
  rw [serializeEntries_length hg2,
    (sortEntries_perm _).length_eq, parseEntries_serialize hg0, List.length_map]

theorem keyAt_serialize {kl : Nat} {es : List IndexEntry} (h : GoodKeys kl es)
    {j : Nat} (hj : j < es.length) :
    keyAt (serializeEntries kl es) kl j = (es.getD j ⟨[], 0⟩).key :=
  keyAt_serializeEntries h j hj

theorem offAt_serialize {kl : Nat} {es : List IndexEntry} (h : GoodKeys kl es)
    {j : Nat} (hj : j < es.length) :
    offAt (serializeEntries kl es) kl j = (es.getD j ⟨[], 0⟩).offset % 2 ^ 64 :=
  offAt_serializeEntries h j hj

theorem numRecords_serialize {kl : Nat} {es : List IndexEntry} (h : GoodKeys kl es) :
    (serializeEntries kl es).length / (kl + 8) = es.length := by
  rw [serializeEntries_length h]
  exact Nat.mul_div_cancel _ (by omega)

/-- Any `some` answer of a search over a built index is the full line of a
record whose first `keyLength` bytes equal the search key. -/
theorem searchForKey_createIndex_some {lines : List (List Nat)} {kl : Nat}
    {key : List Nat} {r : List Nat}
    (hWF : WFLines lines) (h64 : (dataBytes lines).length < 2 ^ 64)
    (hres : searchForKey (createIndex lines kl) (dataBytes lines) key kl = some r) :
    ∃ m, m < lines.length ∧ kl ≤ (lines.getD m []).length ∧
      (lines.getD m []).take kl = key ∧ r = lines.getD m [] := by
  rw [createIndex_eq_inMemory h64] at hres
  have hg : GoodKeys kl (sortEntries (extractEntries lines kl)) :=
    goodKeys_sortEntries (goodKeys_extractEntries lines kl)
  have hsmall : SmallOffsets (sortEntries (extractEntries lines kl)) :=
    smallOffsets_sortEntries (smallOffsets_extractEntries h64)
  rw [searchForKey] at hres
  rcases hloop : searchLoop (createIndexInMemorySort lines kl) kl key
      ((createIndexInMemorySort lines kl).length / (kl + 8)) 0
      ((createIndexInMemorySort lines kl).length / (kl + 8)) with _ | off
  · rw [hloop] at hres; exact absurd hres (by simp)
  · rw [hloop] at hres
    have hr : r = readLineAt (dataBytes lines) off := (Option.some.inj hres).symm
    have hnum : (createIndexInMemorySort lines kl).length / (kl + 8)
        = (sortEntries (extractEntries lines kl)).length := numRecords_serialize hg
    rcases searchLoop_some_probe _ _ _ _ hloop with ⟨j, _, hjhigh, hkeyeq, hoffeq⟩
    have hj : j < (sortEntries (extractEntries lines kl)).length := hnum ▸ hjhigh
    have hkj : (sortEntries (extractEntries lines kl)).getD j ⟨[], 0⟩ ∈
        sortEntries (extractEntries lines kl) := by
      rw [List.getD_eq_getElem _ _ hj]
      exact List.getElem_mem hj
    have hmem : (sortEntries (extractEntries lines kl)).getD j ⟨[], 0⟩ ∈
        extractEntries lines kl := (sortEntries_perm _).mem_iff.mp hkj
    rcases mem_extractEntries.mp hmem with ⟨m, hm, hmlen, hme⟩
    have hkey2 : keyAt (createIndexInMemorySort lines kl) kl j
        = ((sortEntries (extractEntries lines kl)).getD j ⟨[], 0⟩).key :=
      keyAt_serialize hg hj
    have hoff2 : offAt (createIndexInMemorySort lines kl) kl j
        = ((sortEntries (extractEntries lines kl)).getD j ⟨[], 0⟩).offset % 2 ^ 64 :=
      offAt_serialize hg hj
    have hofflt : ((sortEntries (extractEntries lines kl)).getD j ⟨[], 0⟩).offset < 2 ^ 64 :=
      hsmall _ hkj
    refine ⟨m, hm, hmlen, ?_, ?_⟩
    · rw [← hkeyeq, hkey2, hme]
    · rw [hr, hoffeq, hoff2, Nat.mod_eq_of_lt hofflt, hme]
      exact readLineAt_lineStart hWF m hm

/-- A record of sufficient length is always found by searching its own
key: the search loop returns some offset. -/
theorem searchForKey_createIndex_finds {lines : List (List Nat)} {kl : Nat}
    {i : Nat}
    (h64 : (dataBytes lines).length < 2 ^ 64)
    (hi : i < lines.length) (hlen : kl ≤ (lines.getD i []).length) :
    ∃ r, searchForKey (createIndex lines kl) (dataBytes lines)
      ((lines.getD i []).take kl) kl = some r := by
  rw [createIndex_eq_inMemory h64]
  have hg : GoodKeys kl (sortEntries (extractEntries lines kl)) :=
    goodKeys_sortEntries (goodKeys_extractEntries lines kl)
  have hnum : (createIndexInMemorySort lines kl).length / (kl + 8)
      = (sortEntries (extractEntries lines kl)).length := numRecords_serialize hg
  have hmem : (⟨(lines.getD i []).take kl, lineStart lines i⟩ : IndexEntry)
      ∈ sortEntries (extractEntries lines kl) := by
    apply (sortEntries_perm _).mem_iff.mpr
    exact mem_extractEntries.mpr ⟨i, hi, hlen, rfl⟩
  rcases List.getElem_of_mem hmem with ⟨j, hj, hjget⟩
  have hex : ∃ j, j < (sortEntries (extractEntries lines kl)).length ∧
      ((sortEntries (extractEntries lines kl)).getD j ⟨[], 0⟩).key
        = (lines.getD i []).take kl := by
    refine ⟨j, hj, ?_⟩
    rw [List.getD_eq_getElem _ _ hj, hjget]
  have hkeys : ∀ j, j < (sortEntries (extractEntries lines kl)).length →
      keyAt (createIndexInMemorySort lines kl) kl j
        = ((sortEntries (extractEntries lines kl)).getD j ⟨[], 0⟩).key :=
    fun j hj => keyAt_serialize hg hj
  rcases @searchLoop_finds (createIndexInMemorySort lines kl) kl
      ((lines.getD i []).take kl) (sortEntries (extractEntries lines kl)) hkeys
      (sortEntries_sorted _)
      ((createIndexInMemorySort lines kl).length / (kl + 8)) 0
      ((createIndexInMemorySort lines kl).length / (kl + 8))
      (by omega) (le_of_eq hnum)
      (fun j hj _ => ⟨Nat.zero_le j, by omega⟩) hex with ⟨off, hoff⟩
  refine ⟨readLineAt (dataBytes lines) off, ?_⟩
  rw [searchForKey, hoff]

/-! ### The list mode over a built index -/

theorem listLoop_serialize {dataB : List Nat} {kl : Nat} {es : List IndexEntry}
    (h : GoodKeys kl es) :
    ∀ fuel, es.length ≤ fuel →
      listLoop dataB kl fuel (serializeEntries kl es)
        = es.map (fun e => readLineAt dataB (e.offset % 2 ^ 64)) := by
  induction es with
  | nil =>
    intro fuel _
    cases fuel with
    | zero => rfl
    | succ f => simp [listLoop, serializeEntries]
  | cons e es ih =>
    intro fuel hfuel
    cases fuel with
    | zero => exact absurd hfuel (by simp)
    | succ f =>
      have he : e.key.length = kl := h e (List.mem_cons_self e es)
      have hes : GoodKeys kl es := fun x hx => h x (List.mem_cons_of_mem e hx)
      have htake : e.key.take kl = e.key := List.take_of_length_le (le_of_eq he)
      have hser : serializeEntries kl (e :: es)
          = e.key ++ (offsetBytes e.offset ++ serializeEntries kl es) := by
        rw [serializeEntries, serializeEntry, htake, List.append_assoc]
      have hlen : kl + 8 ≤ (serializeEntries kl (e :: es)).length := by
        rw [serializeEntries_length h]
        have h1 : 1 * (kl + 8) ≤ (e :: es).length * (kl + 8) :=
          Nat.mul_le_mul_right _ (by simp)
        omega
      rw [listLoop, if_pos hlen, hser]
      rw [← List.drop_drop, List.drop_left' he, List.take_left' (offsetBytes_length _),
        List.drop_left' (offsetBytes_length _), decode_offsetBytes]
      have hf : es.length ≤ f := by
        simp only [List.length_cons] at hfuel
        omega
      rw [ih hes f hf, List.map_cons]

/-- Every line printed by the list mode over a built index is a record of
the data file whose length reaches `keyLength`. -/
theorem listRecords_createIndex_mem {lines : List (List Nat)} {kl : Nat}
    (hWF : WFLines lines) (h64 : (dataBytes lines).length < 2 ^ 64) :
    ∀ r ∈ listRecords (createIndex lines kl) (dataBytes lines) kl,
      ∃ m, m < lines.length ∧ kl ≤ (lines.getD m []).length ∧ r = lines.getD m [] := by
  intro r hr
  rw [createIndex_eq_inMemory h64] at hr
  have hg : GoodKeys kl (sortEntries (extractEntries lines kl)) :=
    goodKeys_sortEntries (goodKeys_extractEntries lines kl)
  have hsmall : SmallOffsets (sortEntries (extractEntries lines kl)) :=
    smallOffsets_sortEntries (smallOffsets_extractEntries h64)
  have hunfold : createIndexInMemorySort lines kl
      = serializeEntries kl (sortEntries (extractEntries lines kl)) := rfl
  rw [listRecords, hunfold] at hr
  have hfuel : (sortEntries (extractEntries lines kl)).length
      ≤ (serializeEntries kl (sortEntries (extractEntries lines kl))).length := by
    rw [serializeEntries_length hg]
    exact Nat.le_mul_of_pos_right _ (by omega)
  rw [listLoop_serialize hg _ hfuel] at hr
  rcases List.mem_map.mp hr with ⟨e, he, hre⟩
  have hmem : e ∈ extractEntries lines kl := (sortEntries_perm _).mem_iff.mp he
  rcases mem_extractEntries.mp hmem with ⟨m, hm, hmlen, rfl⟩
  refine ⟨m, hm, hmlen, ?_⟩
  rw [← hre]
  have hofflt : lineStart lines m < 2 ^ 64 :=
    lt_of_le_of_lt (lineStart_le_length lines m) h64
  show readLineAt (dataBytes lines) (lineStart lines m % 2 ^ 64) = lines.getD m []
  rw [Nat.mod_eq_of_lt hofflt]
  exact readLineAt_lineStart hWF m hm

/-- Reading the final index back gives exactly the sorted entry list. -/
theorem parse_createIndex {lines : List (List Nat)} {kl : Nat}
    (h64 : (dataBytes lines).length < 2 ^ 64) :
    parseEntries kl (createIndex lines kl) = sortEntries (extractEntries lines kl) := by
  rw [createIndex_eq_inMemory h64]
  show parseEntries kl (serializeEntries kl (sortEntries (extractEntries lines kl)))
      = sortEntries (extractEntries lines kl)
  exact parseEntries_serialize_of_small
    (goodKeys_sortEntries (goodKeys_extractEntries lines kl))
    (smallOffsets_sortEntries (smallOffsets_extractEntries h64))

/-- The key column of the final index file, with no size hypothesis. -/
theorem parse_createIndex_keys (lines : List (List Nat)) (kl : Nat) :
    (parseEntries kl (createIndex lines kl)).map (fun e => e.key)
      = (sortEntries (parseEntries kl (serializeEntries kl (extractEntries lines kl)))).map
          (fun e => e.key) := by
  have hg0 : GoodKeys kl (extractEntries lines kl) := goodKeys_extractEntries lines kl
  have hg2 : GoodKeys kl
      (sortEntries (parseEntries kl (serializeEntries kl (extractEntries lines kl)))) :=
    goodKeys_sortEntries (by rw [parseEntries_serialize hg0]; exact goodKeys_map_mod hg0)
  show (parseEntries kl (serializeEntries kl
      (sortEntries (parseEntries kl (serializeEntries kl (extractEntries lines kl)))))).map
        (fun e => e.key) = _
  rw [parseEntries_serialize hg2, List.map_map]
  rfl

/-- Keys come out of the sort pairwise non-decreasing. -/
theorem chain_keys_sortEntries (es : List IndexEntry) :
    List.Chain' (fun a b : List Nat => strLt b a = false)
      ((sortEntries es).map (fun e => e.key)) := by
  have hp : List.Pairwise entryLE (sortEntries es) := sortEntries_sorted es
  have hp2 : List.Pairwise (fun a b : List Nat => strLt b a = false)
      ((sortEntries es).map (fun e => e.key)) :=
    List.Pairwise.map _ (fun a b hab => hab) hp
  exact hp2.chain'

/-! ### Claim C1 — round-trip -/

/-- C1 (counterexample): as stated, the round-trip claim fails on records
with duplicate keys. In the file with records `"AB"` and `"AC"` and
`keyLength = 1`, record 0 (`"AB"`) has length ≥ 1, yet searching its first
byte `"A"` prints `"AC"`, not `"AB"`. -/
theorem C1_duplicate_key_counterexample :
    1 ≤ (dupLines.getD 0 []).length
    ∧ (dupLines.getD 0 []).take 1 = [65]
    ∧ searchForKey (createIndex dupLines 1) (dataBytes dupLines) [65] 1 = some [65, 67]
    ∧ [65, 67] ≠ dupLines.getD 0 [] := by
  refine ⟨by decide, by decide, by decide, by decide⟩

/-- C1 (amended): for a well-formed data file (no newline byte inside a
record, total size below 2^64) and a record of length ≥ `keyLength` whose
key prefix is unique among the indexed records, searching its first
`keyLength` bytes after a build prints exactly that record's full line. -/
theorem C1_round_trip_unique (lines : List (List Nat)) (kl i : Nat)
    (hWF : WFLines lines) (h64 : (dataBytes lines).length < 2 ^ 64)
    (hi : i < lines.length) (hlen : kl ≤ (lines.getD i []).length)
    (huniq : ∀ j, j < lines.length → kl ≤ (lines.getD j []).length →
      (lines.getD j []).take kl = (lines.getD i []).take kl → j = i) :
    searchForKey (createIndex lines kl) (dataBytes lines)
      ((lines.getD i []).take kl) kl = some (lines.getD i []) := by
  rcases searchForKey_createIndex_finds h64 hi hlen with ⟨r, hr⟩
  rcases searchForKey_createIndex_some hWF h64 hr with ⟨m, hm, hmlen, hmkey, hmr⟩
  have hmi : m = i := huniq m hm hmlen hmkey
  rw [hr, hmr, hmi]

/-- C1 witness: the concrete scenario, searching `"BBBB"` yields
`"BBBB-2"`. -/
theorem C1_round_trip_unique_witness :
    searchForKey (createIndex exampleLines 4) (dataBytes exampleLines)
      ((exampleLines.getD 1 []).take 4) 4 = some (exampleLines.getD 1 []) :=
  C1_round_trip_unique exampleLines 4 1 (by decide) (by decide) (by decide)
    (by decide) (by decide)

/-! ### Claim C2 — sort correctness -/

/-- C2: reading the index file produced by a build entry by entry from the
start, the keys are non-decreasing under byte-lexicographic comparison. -/
theorem C2_sort_correctness (lines : List (List Nat)) (kl : Nat) :
    List.Chain' (fun a b : List Nat => strLt b a = false)
      ((parseEntries kl (createIndex lines kl)).map (fun e => e.key)) := by
  rw [parse_createIndex_keys]
  exact chain_keys_sortEntries _

/-! ### Claim C3 — binary-search loop invariant and termination -/

/-- C3: during `searchForKey`'s loop over the byte index backed by a
sorted entry list, (a) if every entry holding the target key lies in
`[low, high)` then after one probe at `mid` both narrowing branches
(`currentKey < key` sets `low = mid + 1`; `currentKey > key` sets
`high = mid`) preserve that invariant, and (b) the loop terminates with
`none` only when no entry holds the key, or with a confirmed byte-equal
key match, returning that entry's stored offset field. -/
theorem C3_binary_search_invariant (ib : List Nat) (kl : Nat) (key : List Nat)
    (ses : List IndexEntry)
    (hkeys : ∀ j, j < ses.length → keyAt ib kl j = (ses.getD j ⟨[], 0⟩).key)
    (hsorted : List.Sorted entryLE ses)
    (low high fuel : Nat) (hhigh : high ≤ ses.length) (hfuel : high - low ≤ fuel)
    (hinv : ∀ j, j < ses.length → (ses.getD j ⟨[], 0⟩).key = key → low ≤ j ∧ j < high) :
    (low < high →
      (strLt (keyAt ib kl (low + (high - low) / 2)) key = true →
        ∀ j, j < ses.length → (ses.getD j ⟨[], 0⟩).key = key →
          (low + (high - low) / 2) + 1 ≤ j ∧ j < high) ∧
      (strLt key (keyAt ib kl (low + (high - low) / 2)) = true →
        ∀ j, j < ses.length → (ses.getD j ⟨[], 0⟩).key = key →
          low ≤ j ∧ j < low + (high - low) / 2))
    ∧ ((searchLoop ib kl key fuel low high = none ∧
          ∀ j, j < ses.length → (ses.getD j ⟨[], 0⟩).key ≠ key)
        ∨ ∃ j, j < ses.length ∧ (ses.getD j ⟨[], 0⟩).key = key ∧
            searchLoop ib kl key fuel low high = some (offAt ib kl j)) := by
  constructor
  · intro hlh
    have hmidn : low + (high - low) / 2 < ses.length := by omega
    constructor
    · intro h1 j hj hkey
      have hold := hinv j hj hkey
      refine ⟨?_, hold.2⟩
      by_contra hc
      have hjm : j ≤ low + (high - low) / 2 := by omega
      have hle := sorted_strLt_getD hsorted hjm hmidn
      rw [hkeys _ hmidn] at h1
      rw [hkey] at hle
      exact Bool.false_ne_true (hle ▸ h1)
    · intro h2 j hj hkey
      have hold := hinv j hj hkey
      refine ⟨hold.1, ?_⟩
      by_contra hc
      have hjm : low + (high - low) / 2 ≤ j := by omega
      have hle := sorted_strLt_getD hsorted hjm hj
      rw [hkeys _ hmidn] at h2
      rw [hkey] at hle
      exact Bool.false_ne_true (hle ▸ h2)
  · cases hres : searchLoop ib kl key fuel low high with
    | none =>
      exact Or.inl ⟨rfl,
        searchLoop_none_no_match hkeys hsorted fuel low high hfuel hhigh hinv hres⟩
    | some off =>
      refine Or.inr ?_
      rcases searchLoop_some_probe fuel low high off hres with ⟨j, hj1, hj2, hj3, hj4⟩
      have hjn : j < ses.length := lt_of_lt_of_le hj2 hhigh
      refine ⟨j, hjn, ?_, ?_⟩
      · rw [← hkeys j hjn, hj3]
      · rw [hj4]

/-- C3 witness: the concrete index over the example file, searching
`"BBBB"` in the full range `[0, 3)`. -/
theorem C3_binary_search_invariant_witness :
    ((0 : Nat) < 3 →
      (strLt (keyAt (createIndex exampleLines 4) 4 (0 + (3 - 0) / 2))
          [66, 66, 66, 66] = true →
        ∀ j, j < exampleEntries.length →
          (exampleEntries.getD j ⟨[], 0⟩).key = [66, 66, 66, 66] →
          (0 + (3 - 0) / 2) + 1 ≤ j ∧ j < 3) ∧
      (strLt [66, 66, 66, 66]
          (keyAt (createIndex exampleLines 4) 4 (0 + (3 - 0) / 2)) = true →
        ∀ j, j < exampleEntries.length →
          (exampleEntries.getD j ⟨[], 0⟩).key = [66, 66, 66, 66] →
          0 ≤ j ∧ j < 0 + (3 - 0) / 2))
    ∧ ((searchLoop (createIndex exampleLines 4) 4 [66, 66, 66, 66] 3 0 3 = none ∧
          ∀ j, j < exampleEntries.length →
            (exampleEntries.getD j ⟨[], 0⟩).key ≠ [66, 66, 66, 66])
        ∨ ∃ j, j < exampleEntries.length ∧
            (exampleEntries.getD j ⟨[], 0⟩).key = [66, 66, 66, 66] ∧
            searchLoop (createIndex exampleLines 4) 4 [66, 66, 66, 66] 3 0 3
              = some (offAt (createIndex exampleLines 4) 4 j)) :=
  C3_binary_search_invariant (createIndex exampleLines 4) 4 [66, 66, 66, 66]
    exampleEntries (by decide) (by decide) 0 3 3 (by decide) (by decide) (by decide)

/-! ### Claim C4 — strategy equivalence -/

/-- C4: for any data file (of realistic size: total bytes below 2^64, the
range of the 8-byte offset field) and any `keyLength`, the temporary-file
build and the in-memory build produce byte-identical final index files. -/
theorem C4_strategy_equivalence (lines : List (List Nat)) (kl : Nat)
    (h64 : (dataBytes lines).length < 2 ^ 64) :
    createIndex lines kl = createIndexInMemorySort lines kl :=
  createIndex_eq_inMemory h64

/-- C4 witness: the two strategies agree on the concrete example file. -/
theorem C4_strategy_equivalence_witness :
    (dataBytes exampleLines).length < 2 ^ 64
    ∧ createIndex exampleLines 4 = createIndexInMemorySort exampleLines 4 :=
  ⟨by decide, C4_strategy_equivalence exampleLines 4 (by decide)⟩

/-! ### Claim C5 — exit status -/

/-- C5 (code evaluated at the failing input): when a required file cannot
be opened, `main` prints the diagnostic to the error stream but the helper
returns `void` and `main` falls through to `return 0`, so the process
exits 0, not 1.  Malformed arguments do exit 1, and well-formed runs exit
0. -/
theorem C5_exit_status_on_unopenable_file :
    mainRun ["prog", "-c", "data.txt", "index.bin", "4"] none none
      = (0, ["Error opening data file for reading."])
    ∧ mainRun ["prog", "-s", "data.txt", "index.bin", "4", "BBBB"] none none
      = (0, ["Error opening index file for reading."])
    ∧ (mainRun ["prog"] none none).1 = 1
    ∧ (mainRun ["prog", "-x", "data.txt", "index.bin", "4"] none none).1 = 1
    ∧ (mainRun ["prog", "-c", "data.txt", "index.bin", "4"] (some exampleLines)
        none).1 = 0 :=
  ⟨rfl, rfl, rfl, rfl, rfl⟩

/-! ### Claim C6 — negative lookup -/

/-- C6: searching a key that is the prefix of no indexed record prints the
literal `"Record not found"`; and whenever the search prints a record, the
printed record's first `keyLength` bytes equal the search key (never a
wrong record). -/
theorem C6_negative_lookup (lines : List (List Nat)) (kl : Nat) (key : List Nat)
    (hWF : WFLines lines) (h64 : (dataBytes lines).length < 2 ^ 64) :
    ((∀ j, j < lines.length → kl ≤ (lines.getD j []).length →
        (lines.getD j []).take kl ≠ key) →
      searchPrint (createIndex lines kl) (dataBytes lines) key kl
        = "Record not found")
    ∧ ∀ r, searchForKey (createIndex lines kl) (dataBytes lines) key kl = some r →
        r.take kl = key := by
  constructor
  · intro habsent
    cases hres : searchForKey (createIndex lines kl) (dataBytes lines) key kl with
    | none => simp [searchPrint, hres]
    | some r =>
      rcases searchForKey_createIndex_some hWF h64 hres with ⟨m, hm, hmlen, hmkey, _⟩
      exact absurd hmkey (habsent m hm hmlen)
  · intro r hres
    rcases searchForKey_createIndex_some hWF h64 hres with ⟨m, _, _, hmkey, hmr⟩
    rw [hmr, hmkey]

/-- C6 witness: searching `"ZZZZ"` in the example index. -/
theorem C6_negative_lookup_witness :
    searchPrint (createIndex exampleLines 4) (dataBytes exampleLines)
      [90, 90, 90, 90] 4 = "Record not found" :=
  (C6_negative_lookup exampleLines 4 [90, 90, 90, 90] (by decide) (by decide)).1
    (by decide)

/-! ### Claim C7 — stride integrity -/

/-- C7: the final index file's byte length is the number of indexed
records times the stride `keyLength + 8`, hence an exact multiple of the
stride — for both build strategies. -/
theorem C7_stride_integrity (lines : List (List Nat)) (kl : Nat) :
    (createIndex lines kl).length % (kl + 8) = 0
    ∧ (createIndex lines kl).length = (extractEntries lines kl).length * (kl + 8)
    ∧ (createIndexInMemorySort lines kl).length % (kl + 8) = 0 := by
  have h1 := createIndex_length lines kl
  have h2 : (createIndexInMemorySort lines kl).length
      = (sortEntries (extractEntries lines kl)).length * (kl + 8) :=
    serializeEntries_length (goodKeys_sortEntries (goodKeys_extractEntries lines kl))
  exact ⟨by rw [h1]; exact Nat.mul_mod_left _ _, h1,
    by rw [h2]; exact Nat.mul_mod_left _ _⟩

/-! ### Claim C8 — offset semantics -/

/-- C8: every entry written by the build pairs a record's first
`keyLength` bytes with the byte offset of that record's own first byte,
and seeking the data file to that offset and reading one line yields
exactly that record. -/
theorem C8_offset_semantics (lines : List (List Nat)) (kl : Nat)
    (hWF : WFLines lines) (h64 : (dataBytes lines).length < 2 ^ 64) :
    ∀ e ∈ parseEntries kl (createIndex lines kl),
      ∃ i, i < lines.length ∧ kl ≤ (lines.getD i []).length ∧
        e.key = (lines.getD i []).take kl ∧ e.offset = lineStart lines i ∧
        readLineAt (dataBytes lines) e.offset = lines.getD i [] := by
  intro e he
  rw [parse_createIndex h64] at he
  have hmem : e ∈ extractEntries lines kl := (sortEntries_perm _).mem_iff.mp he
  rcases mem_extractEntries.mp hmem with ⟨m, hm, hmlen, rfl⟩
  exact ⟨m, hm, hmlen, rfl, rfl, readLineAt_lineStart hWF m hm⟩

/-- C8 witness: the first entry of the example index is `("AAAA", 0)` and
resolves to the record `"AAAA-1"`. -/
theorem C8_offset_semantics_witness :
    ∃ i, i < exampleLines.length ∧ 4 ≤ (exampleLines.getD i []).length ∧
      (⟨[65, 65, 65, 65], 0⟩ : IndexEntry).key = (exampleLines.getD i []).take 4 ∧
      (⟨[65, 65, 65, 65], 0⟩ : IndexEntry).offset = lineStart exampleLines i ∧
      readLineAt (dataBytes exampleLines) (⟨[65, 65, 65, 65], 0⟩ : IndexEntry).offset
        = exampleLines.getD i [] :=
  C8_offset_semantics exampleLines 4 (by decide) (by decide)
    ⟨[65, 65, 65, 65], 0⟩ (by decide)

/-! ### Claim C9 — exclusion of short records -/

/-- C9: a record strictly shorter than `keyLength` produces no index entry
(no extracted entry carries its offset), never appears in the list mode's
output, and is never printed by search for any key. -/
theorem C9_exclusion (lines : List (List Nat)) (kl i : Nat)
    (hWF : WFLines lines) (h64 : (dataBytes lines).length < 2 ^ 64)
    (hi : i < lines.length) (hshort : (lines.getD i []).length < kl) :
    (∀ e ∈ extractEntries lines kl, e.offset ≠ lineStart lines i)
    ∧ lines.getD i [] ∉ listRecords (createIndex lines kl) (dataBytes lines) kl
    ∧ ∀ key r, searchForKey (createIndex lines kl) (dataBytes lines) key kl = some r
        → r ≠ lines.getD i [] := by
  refine ⟨?_, ?_, ?_⟩
  · intro e he
    rcases mem_extractEntries.mp he with ⟨m, hm, hmlen, rfl⟩
    show lineStart lines m ≠ lineStart lines i
    have hmi : m ≠ i := by
      intro hmi
      rw [hmi] at hmlen
      omega
    rcases Nat.lt_or_ge m i with hlt | hge
    · exact ne_of_lt (lineStart_strictMono hlt (le_of_lt hi))
    · have hlt : i < m := lt_of_le_of_ne hge (Ne.symm hmi)
      exact (ne_of_lt (lineStart_strictMono hlt (le_of_lt hm))).symm
  · intro hr
    rcases listRecords_createIndex_mem hWF h64 _ hr with ⟨m, _, hmlen, hme⟩
    rw [← hme] at hmlen
    omega
  · intro key r hres hri
    rcases searchForKey_createIndex_some hWF h64 hres with ⟨m, _, hmlen, _, hmr⟩
    rw [hri] at hmr
    rw [← hmr] at hmlen
    omega

/-- C9 witness: in the file with records `"AAAA-1"` and `"BB"` with
`keyLength = 4`, the short record `"BB"` is excluded everywhere. -/
theorem C9_exclusion_witness :
    (∀ e ∈ extractEntries mixedLines 4, e.offset ≠ lineStart mixedLines 1)
    ∧ mixedLines.getD 1 [] ∉
        listRecords (createIndex mixedLines 4) (dataBytes mixedLines) 4
    ∧ ∀ key r, searchForKey (createIndex mixedLines 4) (dataBytes mixedLines) key 4
        = some r → r ≠ mixedLines.getD 1 [] :=
  C9_exclusion mixedLines 4 1 (by decide) (by decide) (by decide) (by decide)

/-! ### Claim C10 — wrong-length search key always misses -/

/-- C10: every key stored in a built index has length exactly `keyLength`,
so a search key of any other length compares equal to none of them and the
search always ends in `"Record not found"`. -/
theorem C10_wrong_length_key_misses (lines : List (List Nat)) (kl : Nat)
    (key : List Nat) (hne : key.length ≠ kl) :
    searchPrint (createIndex lines kl) (dataBytes lines) key kl
      = "Record not found" := by
  have hg0 : GoodKeys kl (extractEntries lines kl) := goodKeys_extractEntries lines kl
  have hg2 : GoodKeys kl
      (sortEntries (parseEntries kl (serializeEntries kl (extractEntries lines kl)))) :=
    goodKeys_sortEntries (by rw [parseEntries_serialize hg0]; exact goodKeys_map_mod hg0)
  have hunfold : createIndex lines kl
      = serializeEntries kl
          (sortEntries (parseEntries kl (serializeEntries kl (extractEntries lines kl))))
      := rfl
  cases hres : searchForKey (createIndex lines kl) (dataBytes lines) key kl with
  | none => simp [searchPrint, hres]
  | some r =>
    exfalso
    rw [searchForKey] at hres
    rcases hloop : searchLoop (createIndex lines kl) kl key
        ((createIndex lines kl).length / (kl + 8)) 0
        ((createIndex lines kl).length / (kl + 8)) with _ | off
    · rw [hloop] at hres
      exact absurd hres (by simp)
    · rcases searchLoop_some_probe _ _ _ _ hloop with ⟨j, _, hjh, hkeyat, _⟩
      have hnum : (createIndex lines kl).length / (kl + 8)
          = (sortEntries (parseEntries kl
              (serializeEntries kl (extractEntries lines kl)))).length := by
        rw [hunfold]
        exact numRecords_serialize hg2
      have hj : j < (sortEntries (parseEntries kl
          (serializeEntries kl (extractEntries lines kl)))).length := hnum ▸ hjh
      have hkeyj := keyAt_serialize hg2 hj
      rw [← hunfold] at hkeyj
      have hklen : key.length = kl := by
        rw [← hkeyat, hkeyj]
        apply hg2
        rw [List.getD_eq_getElem _ _ hj]
        exact List.getElem_mem hj
      exact hne hklen

/-- C10 witness: a 2-byte search key against the 4-byte-key example
index. -/
theorem C10_wrong_length_key_misses_witness :
    searchPrint (createIndex exampleLines 4) (dataBytes exampleLines) [66, 66] 4
      = "Record not found" :=
  C10_wrong_length_key_misses exampleLines 4 [66, 66] (by decide)

end SingleIndex
